import Mathlib

/-!
Verification of the variable-substitution engine of PyAPI Studio
(`src/core/variable_resolver.py`).

The engine scans a text for tokens of the form `\x7b\x7b name \x7d\x7d`
(regex `\x7b\x7b([^\x7d]+)\x7d\x7d`), trims the captured name, and replaces
each token by the value found under the name with precedence
runtime > environment > global; a name found in no mapping is re-emitted
as `\x7b\x7b` + trimmed name + `\x7d\x7d`.

Strings are modelled as `List Char` at the scanner level; the Python
`re.sub` left-to-right non-overlapping scan is modelled by `scan`, which
splits the input into raw characters and matched token interiors.
-/

/-- The `Variable` dataclass of the source. -/
structure Variable where
  key : String
  value : String
  is_secret : Bool := false
  environment_id : Option Int := none
deriving DecidableEq, Repr

/-- The `VariableResolver` state: three mappings, modelled as association
lists keyed by the variable name (Python `dict`s). -/
structure VariableResolver where
  global_variables : List (String × Variable)
  environment_variables : List (String × Variable)
  runtime_variables : List (String × String)
deriving DecidableEq, Repr

/-- `set_global_variables`: replaces the global mapping. -/
def set_global_variables (r : VariableResolver) (vs : List (String × Variable)) :
    VariableResolver :=
  { r with global_variables := vs }

/-- `set_environment_variables`: replaces the environment mapping. -/
def set_environment_variables (r : VariableResolver) (vs : List (String × Variable)) :
    VariableResolver :=
  { r with environment_variables := vs }

/-- `set_runtime_variable`: `dict` assignment `runtime[key] = value`,
overriding any previous binding of the key. -/
def set_runtime_variable (r : VariableResolver) (k v : String) : VariableResolver :=
  { r with runtime_variables := (k, v) :: r.runtime_variables.filter (fun kv => kv.1 != k) }

/-- `clear_runtime`: empties the runtime mapping. -/
def clear_runtime (r : VariableResolver) : VariableResolver :=
  { r with runtime_variables := [] }

/-- `VariableResolver._get_value`: precedence runtime > environment > global,
re-emitting `\x7b\x7b` + name + `\x7d\x7d` when the name is unmapped. -/
def getValue (r : VariableResolver) (n : String) : String :=
  match r.runtime_variables.lookup n with
  | some v => v
  | none =>
    match r.environment_variables.lookup n with
    | some v => v.value
    | none =>
      match r.global_variables.lookup n with
      | some v => v.value
      | none => "\x7b\x7b" ++ n ++ "\x7d\x7d"

/-- The name is present in none of the three mappings. -/
def unmapped (r : VariableResolver) (n : String) : Prop :=
  r.runtime_variables.lookup n = none ∧
    r.environment_variables.lookup n = none ∧
    r.global_variables.lookup n = none

instance (r : VariableResolver) (n : String) : Decidable (unmapped r n) := by
  unfold unmapped; infer_instance

/-- Removal of trailing whitespace, the second half of `str.strip()`. -/
def stripEnd (s : List Char) : List Char :=
  ((s.reverse.dropWhile (fun c => c.isWhitespace)).reverse)

/-- Python `str.strip()` on the captured group: drop whitespace from both
ends. -/
def strip (s : List Char) : List Char :=
  stripEnd (s.dropWhile (fun c => c.isWhitespace))

/-- One attempt of the regex `\x7b\x7b([^\x7d]+)\x7d\x7d` after an initial
`\x7b\x7b`: a nonempty run of non-`\x7d` characters must be followed by two
`\x7d`.  Returns the captured interior and the remainder after the match. -/
def parseTok (t : List Char) : Option (List Char × List Char) :=
  if t.takeWhile (fun c => c != '}') ≠ [] ∧
      (t.dropWhile (fun c => c != '}')).take 2 = ['}', '}'] then
    some (t.takeWhile (fun c => c != '}'), (t.dropWhile (fun c => c != '}')).drop 2)
  else none

theorem parseTok_eq_some {t run r2 : List Char} (h : parseTok t = some (run, r2)) :
    t = run ++ '}' :: '}' :: r2 ∧ run ≠ [] ∧ ∀ c ∈ run, c ≠ '}' := by
  unfold parseTok at h
  split at h
  · next hc =>
    obtain ⟨hne, htake⟩ := hc
    injection h with hpair
    rw [Prod.mk.injEq] at hpair
    obtain ⟨rfl, rfl⟩ := hpair
    refine ⟨?_, hne, ?_⟩
    · have hsplit : t.dropWhile (fun c => c != '}') =
          '}' :: '}' :: (t.dropWhile (fun c => c != '}')).drop 2 := by
        conv_lhs => rw [← List.take_append_drop 2 (t.dropWhile (fun c => c != '}'))]
        rw [htake]
        rfl
      conv_lhs =>
        rw [← List.takeWhile_append_dropWhile (p := fun c => c != '}') (l := t), hsplit]
    · intro c hcmem
      have := List.mem_takeWhile_imp hcmem
      simpa using this
  · exact absurd h (by simp)

theorem parseTok_of_wf {run X : List Char} (hne : run ≠ [])
    (hnb : ∀ c ∈ run, c ≠ '}') :
    parseTok (run ++ '}' :: '}' :: X) = some (run, X) := by
  unfold parseTok
  have hall : ∀ c ∈ run, (fun c => c != '}') c = true := by
    intro c hc; simpa using hnb c hc
  rw [List.takeWhile_append_of_pos hall, List.dropWhile_append_of_pos hall]
  simp [hne]

/-- A piece of the scanned input: a raw character passed through, or the
interior (capture group) of a matched token. -/
inductive Piece where
  | raw : Char → Piece
  | tok : List Char → Piece
deriving DecidableEq, Repr

/-- Fuel-bounded body of the scanner; the fuel dominates the input length,
so the exhausted-fuel arm is never reached from `scan`. -/
def scanF : Nat → List Char → List Piece
  | _, [] => []
  | 0, _ :: _ => []
  | fuel + 1, c :: cs =>
    if c = '{' ∧ cs.head? = some '{' then
      match parseTok cs.tail with
      | some (run, r2) => Piece.tok run :: scanF fuel r2
      | none => Piece.raw c :: scanF fuel cs
    else Piece.raw c :: scanF fuel cs

/-- The left-to-right non-overlapping scan of `re.sub`/`re.findall` with the
pattern `\x7b\x7b([^\x7d]+)\x7d\x7d`: on a match the whole token is consumed,
otherwise the scanner advances one character. -/
def scan (s : List Char) : List Piece := scanF s.length s

theorem scanF_congr : ∀ (f1 f2 : Nat) (s : List Char), s.length ≤ f1 →
    s.length ≤ f2 → scanF f1 s = scanF f2 s := by
  intro f1
  induction f1 with
  | zero =>
    intro f2 s h1 h2
    have hnil : s = [] := List.eq_nil_of_length_eq_zero (Nat.le_zero.mp h1)
    subst hnil
    cases f2 <;> rfl
  | succ f ih =>
    intro f2 s h1 h2
    cases s with
    | nil => cases f2 <;> rfl
    | cons c cs =>
      cases f2 with
      | zero => simp at h2
      | succ f2' =>
        simp only [scanF]
        by_cases hc : c = '{' ∧ cs.head? = some '{'
        · rw [if_pos hc, if_pos hc]
          cases hp : parseTok cs.tail with
          | some p =>
            obtain ⟨run, r2⟩ := p
            obtain ⟨d, cs', rfl⟩ : ∃ d cs', cs = d :: cs' := by
              cases cs with
              | nil => simp at hc
              | cons d cs' => exact ⟨d, cs', rfl⟩
            obtain ⟨ht, hne, -⟩ := parseTok_eq_some hp
            rw [List.tail_cons] at ht
            have hrun : 0 < run.length := List.length_pos.mpr hne
            rw [List.length_cons, List.length_cons, ht, List.length_append,
              List.length_cons, List.length_cons] at h1 h2
            show Piece.tok run :: scanF f r2 = Piece.tok run :: scanF f2' r2
            rw [ih f2' r2 (by omega) (by omega)]
          | none =>
            rw [List.length_cons] at h1 h2
            rw [ih f2' cs (by omega) (by omega)]
        · rw [if_neg hc, if_neg hc]
          rw [List.length_cons] at h1 h2
          rw [ih f2' cs (by omega) (by omega)]

/-- Rendering of one piece in `VariableResolver.resolve`: raw characters
pass through; a captured interior is stripped and looked up. -/
def renderPiece (r : VariableResolver) : Piece → List Char
  | Piece.raw c => [c]
  | Piece.tok i => (getValue r (String.mk (strip i))).data

/-- Character-level body of `VariableResolver.resolve`. -/
def resolveChars (r : VariableResolver) (s : List Char) : List Char :=
  ((scan s).map (renderPiece r)).flatten

/-- `VariableResolver.resolve`. -/
def resolve (r : VariableResolver) (text : String) : String :=
  String.mk (resolveChars r text.data)

/-- A Python value stored in a flat dict handed to `resolve_dict`. -/
inductive PyValue where
  | str : String → PyValue
  | int : Int → PyValue
  | bool : Bool → PyValue
  | none : PyValue
deriving DecidableEq, Repr

/-- `VariableResolver.resolve_dict`: apply `resolve` to string values
(`isinstance(value, str)`), pass every other value through. -/
def resolve_dict (r : VariableResolver) (data : List (String × PyValue)) :
    List (String × PyValue) :=
  data.map (fun kv =>
    match kv.2 with
    | PyValue.str s => (kv.1, PyValue.str (resolve r s))
    | v => (kv.1, v))

/-- `re.findall` with the token pattern: the captured groups, in order. -/
def findAllGroups (s : List Char) : List (List Char) :=
  (scan s).filterMap (fun p =>
    match p with
    | Piece.tok i => some i
    | Piece.raw _ => Option.none)

/-- `VariableResolver.get_unresolved_variables`: resolve, then collect the
distinct captured groups of the resolved text (`list(set(findall(...)))`). -/
def get_unresolved_variables (r : VariableResolver) (text : String) : List String :=
  (((findAllGroups (resolve r text).data).map String.mk).dedup)

/-- `VariableResolver.validate`. -/
def validate (r : VariableResolver) (text : String) : Bool × List String :=
  let unresolved := get_unresolved_variables r text
  (unresolved.length == 0, unresolved)

/-- Python `dict` update `d[k] = v`: overwrite in place, else append. -/
def dictSet (l : List (String × String)) (k v : String) : List (String × String) :=
  if (l.lookup k).isSome then
    l.map (fun kv => if kv.1 == k then (k, v) else kv)
  else l ++ [(k, v)]

/-- `VariableResolver.get_all_variables`: globals first, overridden by
environment, overridden by runtime. -/
def get_all_variables (r : VariableResolver) : List (String × String) :=
  let g := r.global_variables.foldl (fun acc kv => dictSet acc kv.1 kv.2.value) []
  let e := r.environment_variables.foldl (fun acc kv => dictSet acc kv.1 kv.2.value) g
  r.runtime_variables.foldl (fun acc kv => dictSet acc kv.1 kv.2) e

/-- A value that is safe to substitute: nonempty and free of brace
characters, so it can neither vanish nor form new token delimiters. -/
def GoodVal (v : String) : Prop :=
  v.data ≠ [] ∧ ∀ c ∈ v.data, c ≠ '{' ∧ c ≠ '}'

instance (v : String) : Decidable (GoodVal v) := by
  unfold GoodVal; infer_instance

/-- Every value stored in any of the three mappings is a `GoodVal`. -/
def GoodResolver (r : VariableResolver) : Prop :=
  (∀ kv ∈ r.runtime_variables, GoodVal kv.2) ∧
    (∀ kv ∈ r.environment_variables, GoodVal kv.2.value) ∧
    (∀ kv ∈ r.global_variables, GoodVal kv.2.value)

instance (r : VariableResolver) : Decidable (GoodResolver r) := by
  unfold GoodResolver; infer_instance

/-- The effect of a second `resolve` pass on one piece of the first pass:
raw characters and substituted good values stay raw; an unmapped token is
re-scanned as the token of its stripped name (or as four raw braces when
the stripped name is empty). -/
def restep (r : VariableResolver) : Piece → List Piece
  | Piece.raw c => [Piece.raw c]
  | Piece.tok i =>
    if unmapped r (String.mk (strip i)) then
      if strip i = [] then
        [Piece.raw '{', Piece.raw '{', Piece.raw '}', Piece.raw '}']
      else [Piece.tok (strip i)]
    else ((getValue r (String.mk (strip i))).data).map Piece.raw

/-- Python `dict` subscript `d[k]`: raises `KeyError` when absent. -/
def dictGetE {α : Type} (l : List (String × α)) (k : String) : Except String α :=
  match l.lookup k with
  | some v => Except.ok v
  | none => Except.error "KeyError"

/-- Exception-aware `_get_value`: every subscript is guarded by an `in`
check exactly as in the source. -/
def getValueE (r : VariableResolver) (n : String) : Except String String :=
  if (r.runtime_variables.lookup n).isSome then
    dictGetE r.runtime_variables n
  else if (r.environment_variables.lookup n).isSome then
    (dictGetE r.environment_variables n).map (fun v => v.value)
  else if (r.global_variables.lookup n).isSome then
    (dictGetE r.global_variables n).map (fun v => v.value)
  else Except.ok ("\x7b\x7b" ++ n ++ "\x7d\x7d")

/-- Exception-aware rendering of one piece. -/
def renderPieceE (r : VariableResolver) : Piece → Except String (List Char)
  | Piece.raw c => Except.ok [c]
  | Piece.tok i => (getValueE r (String.mk (strip i))).map String.data

/-- Left-to-right effectful map: stops at the first raised exception, as a
Python loop would. -/
def mapE {α β : Type} (f : α → Except String β) : List α → Except String (List β)
  | [] => Except.ok []
  | a :: l =>
    match f a with
    | Except.error e => Except.error e
    | Except.ok b =>
      match mapE f l with
      | Except.error e => Except.error e
      | Except.ok bs => Except.ok (b :: bs)

/-- Exception-aware `resolve`. -/
def resolveE (r : VariableResolver) (text : String) : Except String String :=
  (mapE (renderPieceE r) (scan text.data)).map (fun l => String.mk l.flatten)

/-- Exception-aware `resolve_dict`. -/
def resolve_dictE (r : VariableResolver) (data : List (String × PyValue)) :
    Except String (List (String × PyValue)) :=
  mapE (fun kv =>
    match kv.2 with
    | PyValue.str s => (resolveE r s).map (fun t => (kv.1, PyValue.str t))
    | v => Except.ok (kv.1, v)) data

/-- Exception-aware `get_unresolved_variables`. -/
def get_unresolved_variablesE (r : VariableResolver) (text : String) :
    Except String (List String) :=
  (resolveE r text).map (fun s => ((findAllGroups s.data).map String.mk).dedup)

/-- Exception-aware `validate`. -/
def validateE (r : VariableResolver) (text : String) :
    Except String (Bool × List String) :=
  (get_unresolved_variablesE r text).map (fun u => (u.length == 0, u))

/-- Exception-aware `get_all_variables`: the body performs no subscript of
a possibly-missing key, so it cannot raise. -/
def get_all_variablesE (r : VariableResolver) : Except String (List (String × String)) :=
  Except.ok (get_all_variables r)

theorem parseTok_rbrace_head {t : List Char} : parseTok ('}' :: t) = none := by
  unfold parseTok
  rw [if_neg]
  rintro ⟨hne, -⟩
  exact hne (by simp)

theorem dropWhile_eq_nil_of_all {p : Char → Bool} {l : List Char}
    (h : ∀ c ∈ l, p c = true) : l.dropWhile p = [] := by
  induction l with
  | nil => rfl
  | cons a l ih =>
    rw [List.dropWhile_cons_of_pos (h a (by simp))]
    exact ih (fun c hc => h c (by simp [hc]))

theorem parseTok_of_no_rbrace {t : List Char} (h : '}' ∉ t) : parseTok t = none := by
  unfold parseTok
  rw [if_neg]
  rintro ⟨-, htake⟩
  rw [dropWhile_eq_nil_of_all (fun c hc => ?_)] at htake
  · simp at htake
  · simp only [bne_iff_ne, ne_eq]
    intro hcc
    exact h (hcc ▸ hc)

theorem parseTok_of_lone {w u : List Char} (hw : ∀ c ∈ w, c ≠ '}')
    (hu : u.head? ≠ some '}') : parseTok (w ++ '}' :: u) = none := by
  unfold parseTok
  rw [if_neg]
  rintro ⟨-, htake⟩
  have hall : ∀ c ∈ w, (fun c => c != '}') c = true := by
    intro c hc; simpa using hw c hc
  rw [List.dropWhile_append_of_pos hall, List.dropWhile_cons_of_neg (by simp)] at htake
  cases u with
  | nil => simp at htake
  | cons d u' =>
    simp only [List.take_succ_cons, List.take_zero, List.take, List.cons.injEq] at htake
    exact hu (by simp [htake.2.1])

theorem scan_cons_raw {c : Char} {cs : List Char}
    (h : ¬(c = '{' ∧ cs.head? = some '{')) :
    scan (c :: cs) = Piece.raw c :: scan cs := by
  unfold scan
  simp only [List.length_cons, scanF]
  rw [if_neg h]

theorem scan_cons_tok {t run r2 : List Char} (h : parseTok t = some (run, r2)) :
    scan ('{' :: '{' :: t) = Piece.tok run :: scan r2 := by
  unfold scan
  simp only [List.length_cons, scanF]
  rw [if_pos (by simp), List.tail_cons, h]
  show Piece.tok run :: scanF (t.length + 1) r2 = Piece.tok run :: scanF r2.length r2
  obtain ⟨ht, hne, -⟩ := parseTok_eq_some h
  have hrun : 0 < run.length := List.length_pos.mpr hne
  have hlen : r2.length ≤ t.length + 1 := by
    rw [ht, List.length_append, List.length_cons, List.length_cons]
    omega
  rw [scanF_congr (t.length + 1) r2.length r2 hlen le_rfl]

theorem scan_cons_fail {t : List Char} (h : parseTok t = none) :
    scan ('{' :: '{' :: t) = Piece.raw '{' :: scan ('{' :: t) := by
  unfold scan
  simp only [List.length_cons, scanF]
  rw [if_pos (by simp), List.tail_cons, h]

theorem lookup_mem {α : Type} {l : List (String × α)} {k : String} {v : α}
    (h : l.lookup k = some v) : (k, v) ∈ l := by
  induction l with
  | nil => simp [List.lookup] at h
  | cons kv l ih =>
    obtain ⟨k', v'⟩ := kv
    rw [List.lookup] at h
    split at h
    · next hbeq =>
      injection h with hv
      have : k = k' := by simpa using hbeq
      subst this; subst hv
      exact List.mem_cons_self _ _
    · exact List.mem_cons_of_mem _ (ih h)

theorem getValue_data_unmapped {r : VariableResolver} {n : List Char}
    (h : unmapped r (String.mk n)) :
    (getValue r (String.mk n)).data = '{' :: '{' :: (n ++ ['}', '}']) := by
  obtain ⟨h1, h2, h3⟩ := h
  unfold getValue
  rw [h1, h2, h3]
  rw [String.data_append, String.data_append]
  rfl

theorem getValue_good {r : VariableResolver} {n : String} (hr : GoodResolver r)
    (h : ¬ unmapped r n) : GoodVal (getValue r n) := by
  unfold getValue
  obtain ⟨hrt, henv, hgl⟩ := hr
  cases hl1 : r.runtime_variables.lookup n with
  | some v => exact hrt _ (lookup_mem hl1)
  | none =>
    cases hl2 : r.environment_variables.lookup n with
    | some v => exact henv _ (lookup_mem hl2)
    | none =>
      cases hl3 : r.global_variables.lookup n with
      | some v => exact hgl _ (lookup_mem hl3)
      | none => exact absurd ⟨hl1, hl2, hl3⟩ h

theorem flatten_map_raw (r : VariableResolver) (l : List Char) :
    ((l.map Piece.raw).map (renderPiece r)).flatten = l := by
  induction l with
  | nil => rfl
  | cons c l ih =>
    simp only [List.map_cons, List.flatten_cons, renderPiece, List.singleton_append]
    rw [ih]

theorem resolveChars_cons_raw {r : VariableResolver} {c : Char} {cs : List Char}
    (h : ¬(c = '{' ∧ cs.head? = some '{')) :
    resolveChars r (c :: cs) = c :: resolveChars r cs := by
  unfold resolveChars
  rw [scan_cons_raw h]
  simp [renderPiece]

theorem dropWhile_dropWhile {p : Char → Bool} (l : List Char) :
    (l.dropWhile p).dropWhile p = l.dropWhile p := by
  induction l with
  | nil => rfl
  | cons a l ih =>
    by_cases h : p a = true
    · rw [List.dropWhile_cons_of_pos h]
      exact ih
    · rw [List.dropWhile_cons_of_neg h, List.dropWhile_cons_of_neg h]

theorem head?_dropWhile_false {p : Char → Bool} {l : List Char} {c : Char}
    (h : (l.dropWhile p).head? = some c) : p c = false := by
  induction l with
  | nil => simp at h
  | cons a l ih =>
    by_cases hpa : p a = true
    · rw [List.dropWhile_cons_of_pos hpa] at h
      exact ih h
    · rw [List.dropWhile_cons_of_neg hpa] at h
      injection h with hc
      subst hc
      simpa using hpa

theorem stripEnd_append_rest (s : List Char) :
    s = stripEnd s ++ (s.reverse.takeWhile (fun c => c.isWhitespace)).reverse := by
  unfold stripEnd
  conv_lhs =>
    rw [← List.reverse_reverse s,
      ← List.takeWhile_append_dropWhile (p := fun c => c.isWhitespace) (l := s.reverse)]
  rw [List.reverse_append]

theorem strip_strip (s : List Char) : strip (strip s) = strip s := by
  unfold strip
  have h1 : (stripEnd (s.dropWhile (fun c => c.isWhitespace))).dropWhile
      (fun c => c.isWhitespace) = stripEnd (s.dropWhile (fun c => c.isWhitespace)) := by
    cases hSE : stripEnd (s.dropWhile (fun c => c.isWhitespace)) with
    | nil => rfl
    | cons c l =>
      have hmem := stripEnd_append_rest (s.dropWhile (fun c => c.isWhitespace))
      rw [hSE] at hmem
      have hhead : (s.dropWhile (fun c => c.isWhitespace)).head? = some c := by
        rw [hmem]; rfl
      have := head?_dropWhile_false hhead
      rw [List.dropWhile_cons_of_neg (by simp [this])]
  rw [h1]
  unfold stripEnd
  rw [List.reverse_reverse, dropWhile_dropWhile]

theorem mem_of_mem_dropWhile {p : Char → Bool} {l : List Char} {c : Char}
    (h : c ∈ l.dropWhile p) : c ∈ l := by
  induction l with
  | nil => simpa using h
  | cons a l ih =>
    by_cases hpa : p a = true
    · rw [List.dropWhile_cons_of_pos hpa] at h
      exact List.mem_cons_of_mem _ (ih h)
    · rwa [List.dropWhile_cons_of_neg hpa] at h

theorem mem_of_mem_strip {s : List Char} {c : Char} (h : c ∈ strip s) : c ∈ s := by
  unfold strip at h
  have hmem := stripEnd_append_rest (s.dropWhile (fun c => c.isWhitespace))
  have h2 : c ∈ s.dropWhile (fun c => c.isWhitespace) := by
    rw [hmem]
    exact List.mem_append_left _ h
  exact mem_of_mem_dropWhile h2

theorem strip_no_rbrace {i : List Char} (h : ∀ c ∈ i, c ≠ '}') :
    ∀ c ∈ strip i, c ≠ '}' :=
  fun c hc => h c (mem_of_mem_strip hc)

theorem scan_nil : scan [] = [] := rfl

theorem parseTok_nil : parseTok [] = none := by unfold parseTok; simp

theorem resolveChars_nil (r : VariableResolver) : resolveChars r [] = [] := by
  unfold resolveChars
  rw [scan_nil]
  rfl

theorem resolveChars_cons_tok {r : VariableResolver} {t run r2 : List Char}
    (h : parseTok t = some (run, r2)) :
    resolveChars r ('{' :: '{' :: t) =
      (getValue r (String.mk (strip run))).data ++ resolveChars r r2 := by
  unfold resolveChars
  rw [scan_cons_tok h]
  simp only [List.map_cons, List.flatten_cons, renderPiece]

theorem resolveChars_cons_fail {r : VariableResolver} {t : List Char}
    (h : parseTok t = none) :
    resolveChars r ('{' :: '{' :: t) = '{' :: resolveChars r ('{' :: t) := by
  unfold resolveChars
  rw [scan_cons_fail h]
  simp only [List.map_cons, List.flatten_cons, renderPiece, List.singleton_append]

theorem scan_append_no_lbrace {v X : List Char} (h : ∀ c ∈ v, c ≠ '{') :
    scan (v ++ X) = v.map Piece.raw ++ scan X := by
  induction v with
  | nil => rfl
  | cons c v' ih =>
    have hc : ¬(c = '{' ∧ (v' ++ X).head? = some '{') := by
      rintro ⟨rfl, -⟩
      exact h '{' (by simp) rfl
    rw [List.cons_append, scan_cons_raw hc, ih (fun d hd => h d (by simp [hd]))]
    rfl

theorem scan_append_lone {w u : List Char} (hw : ∀ c ∈ w, c ≠ '}')
    (hu : u.head? ≠ some '}') :
    scan (w ++ '}' :: u) = w.map Piece.raw ++ Piece.raw '}' :: scan u := by
  induction w with
  | nil =>
    rw [List.nil_append, scan_cons_raw (by simp)]
    rfl
  | cons c w' ih =>
    have ih' := ih (fun d hd => hw d (by simp [hd]))
    by_cases hc : c = '{' ∧ (w' ++ '}' :: u).head? = some '{'
    · obtain ⟨rfl, hh⟩ := hc
      cases w' with
      | nil => simp at hh
      | cons d w'' =>
        have hd : d = '{' := by
          rw [List.cons_append, List.head?_cons] at hh
          injection hh
        subst hd
        have hw'' : ∀ c ∈ w'', c ≠ '}' := fun d hd => hw d (by simp [hd])
        have hpt : parseTok (w'' ++ '}' :: u) = none := parseTok_of_lone hw'' hu
        rw [List.cons_append, List.cons_append, scan_cons_fail hpt,
          ← List.cons_append, ih']
        rfl
    · rw [List.cons_append, scan_cons_raw hc, ih']
      rfl

theorem scan_reemit {n X : List Char} (hne : n ≠ []) (hnb : ∀ c ∈ n, c ≠ '}') :
    scan ('{' :: '{' :: (n ++ '}' :: '}' :: X)) = Piece.tok n :: scan X :=
  scan_cons_tok (parseTok_of_wf hne hnb)

theorem scan_emptytok (X : List Char) :
    scan ('{' :: '{' :: '}' :: '}' :: X) =
      Piece.raw '{' :: Piece.raw '{' :: Piece.raw '}' :: Piece.raw '}' :: scan X := by
  rw [scan_cons_fail parseTok_rbrace_head]
  rw [scan_cons_raw (by simp)]
  rw [scan_cons_raw (by simp)]
  rw [scan_cons_raw (by simp)]

theorem scan_no_rbrace {s : List Char} (h : '}' ∉ s) : scan s = s.map Piece.raw := by
  induction s with
  | nil => exact scan_nil
  | cons c cs ih =>
    have ih' := ih (fun hmem => h (by simp [hmem]))
    by_cases hc : c = '{' ∧ cs.head? = some '{'
    · obtain ⟨rfl, hh⟩ := hc
      cases cs with
      | nil => simp at hh
      | cons d t =>
        have hd : d = '{' := by
          rw [List.head?_cons] at hh
          injection hh
        subst hd
        have hpt : parseTok t = none := by
          refine parseTok_of_no_rbrace (fun hmem => h ?_)
          simp [hmem]
        rw [scan_cons_fail hpt, ih']
        rfl
    · rw [scan_cons_raw hc, ih']
      rfl

theorem resolveChars_no_rbrace {r : VariableResolver} {s : List Char}
    (h : '}' ∉ s) : resolveChars r s = s := by
  unfold resolveChars
  rw [scan_no_rbrace h]
  exact flatten_map_raw r s

theorem resolveChars_append_lone {r : VariableResolver} {w u : List Char}
    (hw : ∀ c ∈ w, c ≠ '}') (hu : u.head? ≠ some '}') :
    resolveChars r (w ++ '}' :: u) = w ++ '}' :: resolveChars r u := by
  unfold resolveChars
  rw [scan_append_lone hw hu, List.map_append, List.flatten_append]
  rw [flatten_map_raw]
  simp only [List.map_cons, List.flatten_cons, renderPiece, List.singleton_append]

theorem flatten_map_restep_raw (r : VariableResolver) (l : List Char) :
    ((l.map Piece.raw).map (restep r)).flatten = l.map Piece.raw := by
  induction l with
  | nil => rfl
  | cons c l ih =>
    simp only [List.map_cons, List.flatten_cons, restep, List.singleton_append]
    rw [ih]

theorem resolveChars_head_ne_rbrace {r : VariableResolver} (hr : GoodResolver r)
    {u : List Char} (hu : u.head? ≠ some '}') :
    (resolveChars r u).head? ≠ some '}' := by
  cases u with
  | nil =>
    rw [resolveChars_nil]
    simp
  | cons c cs =>
    by_cases hc : c = '{' ∧ cs.head? = some '{'
    · obtain ⟨rfl, hh⟩ := hc
      cases cs with
      | nil => simp at hh
      | cons d t =>
        have hd : d = '{' := by
          rw [List.head?_cons] at hh
          injection hh
        subst hd
        cases hp : parseTok t with
        | some p =>
          obtain ⟨run, r2⟩ := p
          rw [resolveChars_cons_tok hp]
          by_cases hm : unmapped r (String.mk (strip run))
          · rw [getValue_data_unmapped hm]
            intro hcon
            rw [List.cons_append, List.head?_cons] at hcon
            injection hcon with hch
            exact absurd hch (by decide)
          · obtain ⟨hvne, hvnb⟩ := getValue_good hr hm
            cases hv : (getValue r (String.mk (strip run))).data with
            | nil => exact absurd hv hvne
            | cons a as =>
              rw [List.cons_append, List.head?_cons]
              intro hcon
              injection hcon with ha
              exact (hvnb a (by rw [hv]; simp)).2 ha
        | none =>
          rw [resolveChars_cons_fail hp]
          simp
    · rw [resolveChars_cons_raw hc]
      simpa using hu

theorem scan_resolveChars {r : VariableResolver} (hr : GoodResolver r) :
    ∀ s : List Char, scan (resolveChars r s) = ((scan s).map (restep r)).flatten := by
  suffices H : ∀ n (s : List Char), s.length ≤ n →
      scan (resolveChars r s) = ((scan s).map (restep r)).flatten by
    intro s
    exact H s.length s le_rfl
  intro n
  induction n with
  | zero =>
    intro s hs
    have hnil : s = [] := List.eq_nil_of_length_eq_zero (Nat.le_zero.mp hs)
    subst hnil
    rw [resolveChars_nil, scan_nil]
    rfl
  | succ n ih =>
    intro s hs
    cases s with
    | nil =>
      rw [resolveChars_nil, scan_nil]
      rfl
    | cons c cs =>
      by_cases hc : c = '{' ∧ cs.head? = some '{'
      · obtain ⟨rfl, hh⟩ := hc
        cases cs with
        | nil => simp at hh
        | cons d t =>
          have hd : d = '{' := by
            rw [List.head?_cons] at hh
            injection hh
          subst hd
          cases hp : parseTok t with
          | some p =>
            obtain ⟨run, r2⟩ := p
            obtain ⟨ht, hrun_ne, hrun_nb⟩ := parseTok_eq_some hp
            have hlen_r2 : r2.length ≤ n := by
              rw [List.length_cons, List.length_cons, ht, List.length_append,
                List.length_cons, List.length_cons] at hs
              omega
            rw [resolveChars_cons_tok hp, scan_cons_tok hp]
            simp only [List.map_cons, List.flatten_cons]
            by_cases hm : unmapped r (String.mk (strip run))
            · rw [getValue_data_unmapped hm]
              by_cases hsr : strip run = []
              · rw [hsr]
                have hshape : (('{' :: '{' :: (([] : List Char) ++ ['}', '}'])) ++
                    resolveChars r r2) = '{' :: '{' :: '}' :: '}' :: resolveChars r r2 := by
                  simp
                rw [hshape, scan_emptytok, ih r2 hlen_r2]
                simp only [restep]
                rw [if_pos hm, if_pos hsr]
                rfl
              · have hsnb : ∀ c ∈ strip run, c ≠ '}' := strip_no_rbrace hrun_nb
                have hshape : (('{' :: '{' :: (strip run ++ ['}', '}'])) ++
                    resolveChars r r2) =
                    '{' :: '{' :: (strip run ++ '}' :: '}' :: resolveChars r r2) := by
                  simp [List.append_assoc]
                rw [hshape, scan_reemit hsr hsnb, ih r2 hlen_r2]
                simp only [restep]
                rw [if_pos hm, if_neg hsr]
                rfl
            · obtain ⟨hvne, hvnb⟩ := getValue_good hr hm
              rw [scan_append_no_lbrace (fun c hcm => (hvnb c hcm).1), ih r2 hlen_r2]
              simp only [restep]
              rw [if_neg hm]
          | none =>
            by_cases hrb : '}' ∈ t
            · rw [resolveChars_cons_fail hp, scan_cons_fail hp]
              simp only [List.map_cons, List.flatten_cons, restep, List.singleton_append]
              cases hthead : t.head? with
              | none =>
                have ht0 : t = [] := List.head?_eq_none_iff.mp hthead
                subst ht0
                simp at hrb
              | some e =>
                by_cases he : e = '}'
                · subst he
                  obtain ⟨t₂, rfl⟩ : ∃ t₂, t = '}' :: t₂ := by
                    cases t with
                    | nil => cases hthead
                    | cons a b =>
                      rw [List.head?_cons] at hthead
                      injection hthead with ha
                      exact ⟨b, by rw [ha]⟩
                  have h1 : resolveChars r ('{' :: '}' :: t₂) =
                      '{' :: '}' :: resolveChars r t₂ := by
                    rw [resolveChars_cons_raw (by simp), resolveChars_cons_raw (by simp)]
                  rw [h1]
                  rw [scan_cons_fail parseTok_rbrace_head]
                  rw [scan_cons_raw (by simp), scan_cons_raw (by simp)]
                  have hlen : t₂.length ≤ n := by
                    simp only [List.length_cons] at hs
                    omega
                  rw [ih t₂ hlen]
                  rw [scan_cons_raw (by simp), scan_cons_raw (by simp)]
                  simp only [List.map_cons, List.flatten_cons, restep, List.singleton_append]
                · have hwd : t = t.takeWhile (fun c => c != '}') ++
                      t.dropWhile (fun c => c != '}') :=
                    (List.takeWhile_append_dropWhile _ _).symm
                  have hdne : t.dropWhile (fun c => c != '}') ≠ [] := by
                    intro h0
                    rw [h0, List.append_nil] at hwd
                    have := List.mem_takeWhile_imp (hwd ▸ hrb)
                    simp at this
                  obtain ⟨d0, u, hdu⟩ : ∃ d0 u, t.dropWhile (fun c => c != '}') = d0 :: u := by
                    cases hdw : t.dropWhile (fun c => c != '}') with
                    | nil => exact absurd hdw hdne
                    | cons a b => exact ⟨a, b, rfl⟩
                  have hd0 : d0 = '}' := by
                    have hhd : (t.dropWhile (fun c => c != '}')).head? = some d0 := by
                      rw [hdu]
                      rfl
                    have := head?_dropWhile_false hhd
                    simpa using this
                  subst hd0
                  have hw_nb : ∀ c ∈ t.takeWhile (fun c => c != '}'), c ≠ '}' := by
                    intro c hcm
                    have := List.mem_takeWhile_imp hcm
                    simpa using this
                  have hw_ne : t.takeWhile (fun c => c != '}') ≠ [] := by
                    intro h0
                    rw [h0, List.nil_append, hdu] at hwd
                    rw [hwd, List.head?_cons] at hthead
                    injection hthead with ha
                    exact he ha.symm
                  have hu : u.head? ≠ some '}' := by
                    intro hcon
                    cases u with
                    | nil => simp at hcon
                    | cons a u' =>
                      rw [List.head?_cons] at hcon
                      injection hcon with ha
                      subst ha
                      have htake2 : (t.dropWhile (fun c => c != '}')).take 2 = ['}', '}'] := by
                        rw [hdu]
                        rfl
                      unfold parseTok at hp
                      rw [if_pos ⟨hw_ne, htake2⟩] at hp
                      cases hp
                  rw [hdu] at hwd
                  have hlen_u : u.length ≤ n := by
                    conv_lhs at hs => rw [List.length_cons, List.length_cons, hwd]
                    rw [List.length_append, List.length_cons] at hs
                    omega
                  have hlone : ∀ c ∈ '{' :: t.takeWhile (fun c => c != '}'), c ≠ '}' := by
                    intro c hcm
                    rcases List.mem_cons.mp hcm with h1 | h1
                    · subst h1
                      decide
                    · exact hw_nb c h1
                  have hRC : resolveChars r ('{' :: t) =
                      ('{' :: t.takeWhile (fun c => c != '}')) ++
                        '}' :: resolveChars r u := by
                    conv_lhs => rw [hwd, ← List.cons_append]
                    exact resolveChars_append_lone hlone hu
                  rw [hRC]
                  have hscan2 : scan ('{' :: t) =
                      ('{' :: t.takeWhile (fun c => c != '}')).map Piece.raw ++
                        Piece.raw '}' :: scan u := by
                    conv_lhs => rw [hwd, ← List.cons_append]
                    exact scan_append_lone hlone hu
                  rw [hscan2]
                  have hscan1 : scan ('{' :: (('{' :: t.takeWhile (fun c => c != '}')) ++
                      '}' :: resolveChars r u)) =
                      ('{' :: '{' :: t.takeWhile (fun c => c != '}')).map Piece.raw ++
                        Piece.raw '}' :: scan (resolveChars r u) := by
                    rw [← List.cons_append]
                    exact scan_append_lone (by
                      intro c hcm
                      rcases List.mem_cons.mp hcm with h1 | h1
                      · subst h1
                        decide
                      · exact hlone c h1) (resolveChars_head_ne_rbrace hr hu)
                  rw [hscan1, ih u hlen_u]
                  rw [List.map_append, List.flatten_append, flatten_map_restep_raw]
                  simp only [List.map_cons, List.flatten_cons, restep, List.singleton_append,
                    List.cons_append, List.nil_append]
            · have hs_nb : '}' ∉ ('{' :: '{' :: t) := by
                intro hmem
                rcases List.mem_cons.mp hmem with h1 | h1
                · exact absurd h1 (by decide)
                · rcases List.mem_cons.mp h1 with h2 | h2
                  · exact absurd h2 (by decide)
                  · exact hrb h2
              rw [resolveChars_no_rbrace hs_nb, scan_no_rbrace hs_nb]
              exact (flatten_map_restep_raw r _).symm
      · rw [resolveChars_cons_raw hc, scan_cons_raw hc]
        simp only [List.map_cons, List.flatten_cons, restep, List.singleton_append]
        have hlen : cs.length ≤ n := by
          rw [List.length_cons] at hs
          omega
        have hstep : scan (c :: resolveChars r cs) =
            Piece.raw c :: scan (resolveChars r cs) := by
          by_cases hcl : c = '{'
          · subst hcl
            have hcs : cs.head? ≠ some '{' := fun hcon => hc ⟨rfl, hcon⟩
            cases cs with
            | nil =>
              rw [resolveChars_nil]
              exact scan_cons_raw (by simp)
            | cons c' cs' =>
              have hc' : c' ≠ '{' := by
                intro h0
                exact hcs (by simp [h0])
              rw [resolveChars_cons_raw (by
                rintro ⟨h0, -⟩
                exact hc' h0)]
              refine scan_cons_raw ?_
              rintro ⟨-, hcon⟩
              rw [List.head?_cons] at hcon
              injection hcon with h0
              exact hc' h0
          · exact scan_cons_raw (by
              rintro ⟨h0, -⟩
              exact hcl h0)
        rw [hstep, ih cs hlen]

theorem render_restep (r : VariableResolver) (p : Piece) :
    ((restep r p).map (renderPiece r)).flatten = renderPiece r p := by
  cases p with
  | raw c => rfl
  | tok i =>
    simp only [restep]
    by_cases hm : unmapped r (String.mk (strip i))
    · rw [if_pos hm]
      by_cases hsr : strip i = []
      · rw [if_pos hsr]
        rw [renderPiece, getValue_data_unmapped hm, hsr]
        rfl
      · rw [if_neg hsr]
        simp only [List.map_cons, List.map_nil, List.flatten_cons, List.flatten_nil,
          List.append_nil, renderPiece, strip_strip]
    · rw [if_neg hm]
      exact flatten_map_raw r _

theorem resolveChars_idem {r : VariableResolver} (hr : GoodResolver r)
    (s : List Char) :
    resolveChars r (resolveChars r s) = resolveChars r s := by
  conv_lhs => rw [resolveChars, scan_resolveChars hr s]
  conv_rhs => rw [resolveChars]
  generalize scan s = pieces
  induction pieces with
  | nil => rfl
  | cons p ps ih =>
    simp only [List.map_cons, List.flatten_cons, List.map_append, List.flatten_append]
    rw [render_restep, ih]

theorem token_string_data (n : String) :
    ("\x7b\x7b" ++ n ++ "\x7d\x7d").data = '{' :: '{' :: (n.data ++ ['}', '}']) := by
  rw [String.data_append, String.data_append]
  rfl

theorem resolveChars_single_token {r : VariableResolver} {n : List Char}
    (hne : n ≠ []) (hnb : ∀ c ∈ n, c ≠ '}') :
    resolveChars r ('{' :: '{' :: (n ++ ['}', '}'])) =
      (getValue r (String.mk (strip n))).data := by
  have hshape : '{' :: '{' :: (n ++ ['}', '}']) =
      '{' :: '{' :: (n ++ '}' :: '}' :: ([] : List Char)) := rfl
  rw [hshape, resolveChars_cons_tok (parseTok_of_wf hne hnb), resolveChars_nil,
    List.append_nil]

theorem tok_mem_restep {r : VariableResolver} {p : Piece} {i : List Char}
    (h : Piece.tok i ∈ restep r p) :
    ∃ j, p = Piece.tok j ∧ unmapped r (String.mk (strip j)) ∧ strip j ≠ [] ∧
      i = strip j := by
  cases p with
  | raw c => simp [restep] at h
  | tok j =>
    simp only [restep] at h
    by_cases hm : unmapped r (String.mk (strip j))
    · rw [if_pos hm] at h
      by_cases hsr : strip j = []
      · rw [if_pos hsr] at h
        simp at h
      · rw [if_neg hsr] at h
        simp only [List.mem_singleton, Piece.tok.injEq] at h
        exact ⟨j, rfl, hm, hsr, h⟩
    · rw [if_neg hm] at h
      exfalso
      rcases List.mem_map.mp h with ⟨a, -, hcon⟩
      cases hcon

theorem tok_mem_restep_self {r : VariableResolver} {j : List Char}
    (hm : unmapped r (String.mk (strip j))) (hne : strip j ≠ []) :
    Piece.tok (strip j) ∈ restep r (Piece.tok j) := by
  simp only [restep]
  rw [if_pos hm, if_neg hne]
  simp

theorem tok_mem_scan {s i : List Char} (h : Piece.tok i ∈ scan s) :
    i ≠ [] ∧ ∀ c ∈ i, c ≠ '}' := by
  suffices H : ∀ n (s : List Char), s.length ≤ n → Piece.tok i ∈ scan s →
      i ≠ [] ∧ ∀ c ∈ i, c ≠ '}' by
    exact H s.length s le_rfl h
  clear h
  intro n
  induction n with
  | zero =>
    intro s hs h
    have hnil : s = [] := List.eq_nil_of_length_eq_zero (Nat.le_zero.mp hs)
    subst hnil
    rw [scan_nil] at h
    cases h
  | succ n ih =>
    intro s hs h
    cases s with
    | nil =>
      rw [scan_nil] at h
      cases h
    | cons c cs =>
      by_cases hc : c = '{' ∧ cs.head? = some '{'
      · obtain ⟨rfl, hh⟩ := hc
        cases cs with
        | nil => simp at hh
        | cons d t =>
          have hd : d = '{' := by
            rw [List.head?_cons] at hh
            injection hh
          subst hd
          cases hp : parseTok t with
          | some p =>
            obtain ⟨run, r2⟩ := p
            obtain ⟨ht, hrun_ne, hrun_nb⟩ := parseTok_eq_some hp
            rw [scan_cons_tok hp] at h
            rcases List.mem_cons.mp h with h1 | h1
            · injection h1 with h2
              subst h2
              exact ⟨hrun_ne, hrun_nb⟩
            · refine ih r2 ?_ h1
              rw [List.length_cons, List.length_cons, ht, List.length_append,
                List.length_cons, List.length_cons] at hs
              omega
          | none =>
            rw [scan_cons_fail hp] at h
            rcases List.mem_cons.mp h with h1 | h1
            · cases h1
            · refine ih ('{' :: t) ?_ h1
              simp only [List.length_cons] at hs ⊢
              omega
      · rw [scan_cons_raw hc] at h
        rcases List.mem_cons.mp h with h1 | h1
        · cases h1
        · refine ih cs ?_ h1
          rw [List.length_cons] at hs
          omega

theorem tok_mem_scan_decomp {s i : List Char} (h : Piece.tok i ∈ scan s) :
    ∃ pre post, s = pre ++ '{' :: '{' :: (i ++ '}' :: '}' :: post) := by
  suffices H : ∀ n (s : List Char), s.length ≤ n → Piece.tok i ∈ scan s →
      ∃ pre post, s = pre ++ '{' :: '{' :: (i ++ '}' :: '}' :: post) by
    exact H s.length s le_rfl h
  clear h
  intro n
  induction n with
  | zero =>
    intro s hs h
    have hnil : s = [] := List.eq_nil_of_length_eq_zero (Nat.le_zero.mp hs)
    subst hnil
    rw [scan_nil] at h
    cases h
  | succ n ih =>
    intro s hs h
    cases s with
    | nil =>
      rw [scan_nil] at h
      cases h
    | cons c cs =>
      by_cases hc : c = '{' ∧ cs.head? = some '{'
      · obtain ⟨rfl, hh⟩ := hc
        cases cs with
        | nil => simp at hh
        | cons d t =>
          have hd : d = '{' := by
            rw [List.head?_cons] at hh
            injection hh
          subst hd
          cases hp : parseTok t with
          | some p =>
            obtain ⟨run, r2⟩ := p
            obtain ⟨ht, hrun_ne, hrun_nb⟩ := parseTok_eq_some hp
            rw [scan_cons_tok hp] at h
            rcases List.mem_cons.mp h with h1 | h1
            · injection h1 with h2
              subst h2
              exact ⟨[], r2, by rw [ht]; rfl⟩
            · obtain ⟨pre, post, hdecomp⟩ := ih r2 (by
                rw [List.length_cons, List.length_cons, ht, List.length_append,
                  List.length_cons, List.length_cons] at hs
                omega) h1
              refine ⟨'{' :: '{' :: (run ++ '}' :: '}' :: pre), post, ?_⟩
              rw [ht, hdecomp]
              simp [List.append_assoc]
          | none =>
            rw [scan_cons_fail hp] at h
            rcases List.mem_cons.mp h with h1 | h1
            · cases h1
            · obtain ⟨pre, post, hdecomp⟩ := ih ('{' :: t) (by
                simp only [List.length_cons] at hs ⊢
                omega) h1
              exact ⟨'{' :: pre, post, by rw [List.cons_append, ← hdecomp]⟩
      · rw [scan_cons_raw hc] at h
        rcases List.mem_cons.mp h with h1 | h1
        · cases h1
        · obtain ⟨pre, post, hdecomp⟩ := ih cs (by
            rw [List.length_cons] at hs
            omega) h1
          exact ⟨c :: pre, post, by rw [List.cons_append, ← hdecomp]⟩

theorem scan_all_raw_of_no_tok {s : List Char} (h : ∀ i, Piece.tok i ∉ scan s) :
    scan s = s.map Piece.raw := by
  suffices H : ∀ n (s : List Char), s.length ≤ n → (∀ i, Piece.tok i ∉ scan s) →
      scan s = s.map Piece.raw by
    exact H s.length s le_rfl h
  clear h
  intro n
  induction n with
  | zero =>
    intro s hs h
    have hnil : s = [] := List.eq_nil_of_length_eq_zero (Nat.le_zero.mp hs)
    subst hnil
    exact scan_nil
  | succ n ih =>
    intro s hs h
    cases s with
    | nil => exact scan_nil
    | cons c cs =>
      by_cases hc : c = '{' ∧ cs.head? = some '{'
      · obtain ⟨rfl, hh⟩ := hc
        cases cs with
        | nil => simp at hh
        | cons d t =>
          have hd : d = '{' := by
            rw [List.head?_cons] at hh
            injection hh
          subst hd
          cases hp : parseTok t with
          | some p =>
            obtain ⟨run, r2⟩ := p
            exfalso
            exact h run (by rw [scan_cons_tok hp]; simp)
          | none =>
            rw [scan_cons_fail hp]
            rw [ih ('{' :: t) (by
              simp only [List.length_cons] at hs ⊢
              omega) (fun i hi => h i (by rw [scan_cons_fail hp]; simp [hi]))]
            rfl
      · rw [scan_cons_raw hc]
        rw [ih cs (by
          rw [List.length_cons] at hs
          omega) (fun i hi => h i (by rw [scan_cons_raw hc]; simp [hi]))]
        rfl

theorem getValue_runtime {r : VariableResolver} {n v : String}
    (h : r.runtime_variables.lookup n = some v) : getValue r n = v := by
  unfold getValue
  rw [h]

theorem getValue_env {r : VariableResolver} {n : String} {ev : Variable}
    (h1 : r.runtime_variables.lookup n = none)
    (h2 : r.environment_variables.lookup n = some ev) : getValue r n = ev.value := by
  unfold getValue
  rw [h1, h2]

theorem getValue_global {r : VariableResolver} {n : String} {gv : Variable}
    (h1 : r.runtime_variables.lookup n = none)
    (h2 : r.environment_variables.lookup n = none)
    (h3 : r.global_variables.lookup n = some gv) : getValue r n = gv.value := by
  unfold getValue
  rw [h1, h2, h3]

theorem getValue_of_unmapped {r : VariableResolver} {n : String} (h : unmapped r n) :
    getValue r n = "\x7b\x7b" ++ n ++ "\x7d\x7d" := by
  unfold getValue
  rw [h.1, h.2.1, h.2.2]

theorem resolve_single_token {r : VariableResolver} {n : String}
    (hne : n.data ≠ []) (hnb : ∀ c ∈ n.data, c ≠ '}')
    (hstrip : strip n.data = n.data) :
    resolve r ("\x7b\x7b" ++ n ++ "\x7d\x7d") = getValue r n := by
  unfold resolve
  rw [token_string_data, resolveChars_single_token hne hnb, hstrip]

theorem mem_findAll_resolve {r : VariableResolver} (hr : GoodResolver r)
    {s i : List Char} :
    i ∈ findAllGroups (resolveChars r s) ↔
      ∃ j, Piece.tok j ∈ scan s ∧ unmapped r (String.mk (strip j)) ∧
        strip j ≠ [] ∧ i = strip j := by
  unfold findAllGroups
  rw [scan_resolveChars hr]
  constructor
  · intro h
    rcases List.mem_filterMap.mp h with ⟨p, hp, hf⟩
    have hpi : p = Piece.tok i := by
      cases p with
      | raw c => cases hf
      | tok j =>
        injection hf with hj
        rw [hj]
    subst hpi
    rcases List.mem_flatten.mp hp with ⟨l, hl, hmem⟩
    rcases List.mem_map.mp hl with ⟨p', hp', rfl⟩
    obtain ⟨j, rfl, hm, hne2, rfl⟩ := tok_mem_restep hmem
    exact ⟨j, hp', hm, hne2, rfl⟩
  · rintro ⟨j, hj, hm, hne2, rfl⟩
    refine List.mem_filterMap.mpr ⟨Piece.tok (strip j), ?_, rfl⟩
    refine List.mem_flatten.mpr ⟨restep r (Piece.tok j), ?_, tok_mem_restep_self hm hne2⟩
    exact List.mem_map.mpr ⟨Piece.tok j, hj, rfl⟩

theorem resolve_dict_eq_map (r : VariableResolver) (data : List (String × PyValue)) :
    resolve_dict r data = data.map (fun kv =>
      (kv.1, match kv.2 with
        | PyValue.str s => PyValue.str (resolve r s)
        | v => v)) := by
  unfold resolve_dict
  induction data with
  | nil => rfl
  | cons kv rest ih =>
    obtain ⟨k, v⟩ := kv
    rw [List.map_cons, List.map_cons, ih]
    cases v <;> rfl

theorem lookup_map_value {α β : Type} (g : α → β) (l : List (String × α)) (k : String) :
    (l.map (fun kv => (kv.1, g kv.2))).lookup k = (l.lookup k).map g := by
  induction l with
  | nil => rfl
  | cons kv rest ih =>
    obtain ⟨k', v⟩ := kv
    rw [List.map_cons, List.lookup, List.lookup]
    cases hbeq : k == k'
    · simpa using ih
    · rfl

theorem getValueE_ok (r : VariableResolver) (n : String) :
    getValueE r n = Except.ok (getValue r n) := by
  cases h1 : r.runtime_variables.lookup n with
  | some v => simp [getValueE, getValue, dictGetE, h1]
  | none =>
    cases h2 : r.environment_variables.lookup n with
    | some v => simp [getValueE, getValue, dictGetE, h1, h2, Except.map]
    | none =>
      cases h3 : r.global_variables.lookup n with
      | some v => simp [getValueE, getValue, dictGetE, h1, h2, h3, Except.map]
      | none => simp [getValueE, getValue, dictGetE, h1, h2, h3]

theorem renderPieceE_ok (r : VariableResolver) (p : Piece) :
    renderPieceE r p = Except.ok (renderPiece r p) := by
  cases p with
  | raw c => rfl
  | tok i => simp [renderPieceE, renderPiece, getValueE_ok, Except.map]

theorem mapE_ok {α β : Type} (f : α → Except String β) (g : α → β)
    (h : ∀ a, f a = Except.ok (g a)) :
    ∀ l : List α, mapE f l = Except.ok (l.map g) := by
  intro l
  induction l with
  | nil => rfl
  | cons a l ih =>
    rw [mapE, h a, ih]
    rfl

theorem resolveE_ok (r : VariableResolver) (text : String) :
    resolveE r text = Except.ok (resolve r text) := by
  unfold resolveE
  rw [mapE_ok (renderPieceE r) (renderPiece r) (renderPieceE_ok r) (scan text.data)]
  rfl

theorem resolve_dictE_ok (r : VariableResolver) (data : List (String × PyValue)) :
    resolve_dictE r data = Except.ok (resolve_dict r data) := by
  unfold resolve_dictE
  rw [mapE_ok _ (fun kv =>
    match kv.2 with
    | PyValue.str s => (kv.1, PyValue.str (resolve r s))
    | v => (kv.1, v)) ?_ data]
  · rfl
  · intro kv
    obtain ⟨k, v⟩ := kv
    cases v with
    | str s => simp [resolveE_ok, Except.map]
    | int m => rfl
    | bool b => rfl
    | none => rfl

theorem get_unresolved_variablesE_ok (r : VariableResolver) (text : String) :
    get_unresolved_variablesE r text = Except.ok (get_unresolved_variables r text) := by
  unfold get_unresolved_variablesE get_unresolved_variables
  rw [resolveE_ok]
  rfl

theorem validateE_ok (r : VariableResolver) (text : String) :
    validateE r text = Except.ok (validate r text) := by
  unfold validateE validate
  rw [get_unresolved_variablesE_ok]
  rfl

/-- Claim C1: lookup precedence is runtime > environment > global.  For a
well-formed token name defined in all three scopes, `resolve` substitutes
the runtime value; after `clear_runtime` it substitutes the environment
value; with the name absent from the environment mapping as well, the
global value; with the name absent from all three mappings the literal
unresolved token is emitted. -/
theorem c1_lookup_precedence (r : VariableResolver) (n : String)
    (hne : n.data ≠ []) (hnb : ∀ c ∈ n.data, c ≠ '}')
    (hstrip : strip n.data = n.data) :
    (∀ v, r.runtime_variables.lookup n = some v →
      resolve r ("\x7b\x7b" ++ n ++ "\x7d\x7d") = v) ∧
    (∀ ev, r.environment_variables.lookup n = some ev →
      resolve (clear_runtime r) ("\x7b\x7b" ++ n ++ "\x7d\x7d") = ev.value) ∧
    (∀ gv, r.environment_variables.lookup n = none →
      r.global_variables.lookup n = some gv →
      resolve (clear_runtime r) ("\x7b\x7b" ++ n ++ "\x7d\x7d") = gv.value) ∧
    (unmapped r n →
      resolve r ("\x7b\x7b" ++ n ++ "\x7d\x7d") = "\x7b\x7b" ++ n ++ "\x7d\x7d") := by
  refine ⟨?_, ?_, ?_, ?_⟩
  · intro v hv
    rw [resolve_single_token hne hnb hstrip]
    exact getValue_runtime hv
  · intro ev hev
    rw [resolve_single_token hne hnb hstrip]
    exact getValue_env rfl hev
  · intro gv henv hgl
    rw [resolve_single_token hne hnb hstrip]
    exact getValue_global rfl henv hgl
  · intro hm
    rw [resolve_single_token hne hnb hstrip]
    exact getValue_of_unmapped hm

theorem c1_lookup_precedence_witness :
    resolve ⟨[("a", ⟨"a", "GV", false, none⟩)], [("a", ⟨"a", "EV", false, none⟩)],
        [("a", "RV")]⟩ ("\x7b\x7b" ++ "a" ++ "\x7d\x7d") = "RV" ∧
    resolve (clear_runtime ⟨[("a", ⟨"a", "GV", false, none⟩)],
        [("a", ⟨"a", "EV", false, none⟩)], [("a", "RV")]⟩)
      ("\x7b\x7b" ++ "a" ++ "\x7d\x7d") = "EV" ∧
    resolve (clear_runtime ⟨[("a", ⟨"a", "GV", false, none⟩)], [], [("a", "RV")]⟩)
      ("\x7b\x7b" ++ "a" ++ "\x7d\x7d") = "GV" ∧
    resolve (⟨[], [], []⟩ : VariableResolver) ("\x7b\x7b" ++ "a" ++ "\x7d\x7d") =
      "\x7b\x7b" ++ "a" ++ "\x7d\x7d" := by
  refine ⟨?_, ?_, ?_, ?_⟩
  · exact (c1_lookup_precedence _ "a" (by decide) (by decide) (by decide)).1
      "RV" (by decide)
  · exact (c1_lookup_precedence _ "a" (by decide) (by decide) (by decide)).2.1
      ⟨"a", "EV", false, none⟩ (by decide)
  · exact (c1_lookup_precedence _ "a" (by decide) (by decide) (by decide)).2.2.1
      ⟨"a", "GV", false, none⟩ (by decide) (by decide)
  · exact (c1_lookup_precedence _ "a" (by decide) (by decide) (by decide)).2.2.2
      (by decide)

/-- Claim C2 counterexample: an unresolved token is NOT left verbatim: the
interior whitespace of the captured name is stripped before re-emission, so
`resolve` of the token with name `  missing  ` returns the re-trimmed form,
not the original text. -/
theorem c2_counterexample :
    resolve (⟨[], [], []⟩ : VariableResolver) ("\x7b\x7b  missing  \x7d\x7d") ≠
      "\x7b\x7b  missing  \x7d\x7d" ∧
    resolve (⟨[], [], []⟩ : VariableResolver) ("\x7b\x7b  missing  \x7d\x7d") =
      "\x7b\x7bmissing\x7d\x7d" := by
  constructor
  · decide
  · decide

/-- Claim C2 amended: a token whose (stripped) name is found in no mapping
is re-emitted with its delimiters but with the captured name stripped of
surrounding whitespace; the delimiters are preserved, the interior
whitespace at the edges of the name is not. -/
theorem c2_unresolved_reemitted_trimmed (r : VariableResolver) (i : List Char)
    (hne : i ≠ []) (hnb : ∀ c ∈ i, c ≠ '}')
    (hm : unmapped r (String.mk (strip i))) :
    resolve r (String.mk ('{' :: '{' :: (i ++ ['}', '}']))) =
      String.mk ('{' :: '{' :: (strip i ++ ['}', '}'])) := by
  unfold resolve
  rw [show (String.mk ('{' :: '{' :: (i ++ ['}', '}']))).data =
    '{' :: '{' :: (i ++ ['}', '}']) from rfl]
  rw [resolveChars_single_token hne hnb, getValue_data_unmapped hm]

theorem c2_unresolved_reemitted_trimmed_witness :
    unmapped (⟨[], [], []⟩ : VariableResolver)
      (String.mk (strip (' ' :: ' ' :: 'm' :: ' ' :: ' ' :: []))) ∧
    resolve (⟨[], [], []⟩ : VariableResolver)
      (String.mk ('{' :: '{' :: ((' ' :: ' ' :: 'm' :: ' ' :: ' ' :: []) ++ ['}', '}']))) =
      String.mk ('{' :: '{' :: (strip (' ' :: ' ' :: 'm' :: ' ' :: ' ' :: []) ++ ['}', '}'])) :=
  ⟨by decide, c2_unresolved_reemitted_trimmed ⟨[], [], []⟩ _ (by decide) (by decide)
    (by decide)⟩

/-- Claim C3: substitution is a single left-to-right pass and substituted
values are never re-scanned: the looked-up value of every token of the text
appears verbatim (contiguously) in the output, and a runtime variable whose
value itself contains a `\x7b\x7b...\x7d\x7d` token resolves to that value
literally, with the embedded token left unexpanded. -/
theorem c3_single_pass_no_reexpansion :
    (∀ (r : VariableResolver) (text : String) (i : List Char),
      Piece.tok i ∈ scan text.data →
      ∃ A B, (resolve r text).data =
        A ++ ((getValue r (String.mk (strip i))).data ++ B)) ∧
    (∀ (r : VariableResolver) (n v : String), n.data ≠ [] →
      (∀ c ∈ n.data, c ≠ '}') → strip n.data = n.data →
      r.runtime_variables.lookup n = some v →
      resolve r ("\x7b\x7b" ++ n ++ "\x7d\x7d") = v) := by
  constructor
  · intro r text i hi
    obtain ⟨l1, l2, hsplit⟩ := List.append_of_mem hi
    refine ⟨(l1.map (renderPiece r)).flatten, (l2.map (renderPiece r)).flatten, ?_⟩
    show resolveChars r text.data = _
    rw [resolveChars, hsplit, List.map_append, List.flatten_append, List.map_cons,
      List.flatten_cons]
    rfl
  · intro r n v hne hnb hstrip hv
    rw [resolve_single_token hne hnb hstrip]
    exact getValue_runtime hv

theorem c3_single_pass_no_reexpansion_witness :
    (∃ A B, (resolve (⟨[], [], [("a", "\x7b\x7bb\x7d\x7d")]⟩ : VariableResolver)
        ("x \x7b\x7ba\x7d\x7d y")).data =
      A ++ ((getValue (⟨[], [], [("a", "\x7b\x7bb\x7d\x7d")]⟩ : VariableResolver)
        (String.mk (strip ('a' :: [])))).data ++ B)) ∧
    resolve (⟨[], [], [("a", "\x7b\x7bb\x7d\x7d"), ("b", "z")]⟩ : VariableResolver)
      ("\x7b\x7b" ++ "a" ++ "\x7d\x7d") = "\x7b\x7bb\x7d\x7d" :=
  ⟨c3_single_pass_no_reexpansion.1 ⟨[], [], [("a", "\x7b\x7bb\x7d\x7d")]⟩
      ("x \x7b\x7ba\x7d\x7d y") ('a' :: []) (by decide),
    c3_single_pass_no_reexpansion.2 ⟨[], [], [("a", "\x7b\x7bb\x7d\x7d"), ("b", "z")]⟩
      "a" "\x7b\x7bb\x7d\x7d" (by decide) (by decide) (by decide) (by decide)⟩

/-- Claim C4 counterexample: `resolve` is not idempotent for a fixed
resolver state: with `a` mapped to the value `\x7b\x7bb\x7d\x7d` and `b`
mapped to `x`, one pass of the token for `a` yields the embedded token,
and a second pass expands it further. -/
theorem c4_counterexample :
    resolve (⟨[("a", ⟨"a", "\x7b\x7bb\x7d\x7d", false, none⟩),
        ("b", ⟨"b", "x", false, none⟩)], [], []⟩ : VariableResolver)
      ("\x7b\x7ba\x7d\x7d") = "\x7b\x7bb\x7d\x7d" ∧
    resolve (⟨[("a", ⟨"a", "\x7b\x7bb\x7d\x7d", false, none⟩),
        ("b", ⟨"b", "x", false, none⟩)], [], []⟩ : VariableResolver)
      (resolve (⟨[("a", ⟨"a", "\x7b\x7bb\x7d\x7d", false, none⟩),
        ("b", ⟨"b", "x", false, none⟩)], [], []⟩ : VariableResolver)
        ("\x7b\x7ba\x7d\x7d")) = "x" ∧
    resolve (⟨[("a", ⟨"a", "\x7b\x7bb\x7d\x7d", false, none⟩),
        ("b", ⟨"b", "x", false, none⟩)], [], []⟩ : VariableResolver)
      (resolve (⟨[("a", ⟨"a", "\x7b\x7bb\x7d\x7d", false, none⟩),
        ("b", ⟨"b", "x", false, none⟩)], [], []⟩ : VariableResolver)
        ("\x7b\x7ba\x7d\x7d")) ≠
      resolve (⟨[("a", ⟨"a", "\x7b\x7bb\x7d\x7d", false, none⟩),
        ("b", ⟨"b", "x", false, none⟩)], [], []⟩ : VariableResolver)
        ("\x7b\x7ba\x7d\x7d") := by
  refine ⟨by decide, by decide, by decide⟩

/-- Claim C4 amended: `resolve` is idempotent for a fixed resolver state
provided every value stored in the three mappings is nonempty and contains
no brace character (so no substitution can create, destroy, or complete a
token delimiter): for every text, resolving twice equals resolving once. -/
theorem c4_resolve_idem_of_good (r : VariableResolver) (hr : GoodResolver r)
    (text : String) : resolve r (resolve r text) = resolve r text := by
  unfold resolve
  rw [show (String.mk (resolveChars r text.data)).data =
    resolveChars r text.data from rfl]
  rw [resolveChars_idem hr]

theorem c4_resolve_idem_of_good_witness :
    GoodResolver (⟨[("a", ⟨"a", "val", false, none⟩)], [], []⟩ : VariableResolver) ∧
    resolve (⟨[("a", ⟨"a", "val", false, none⟩)], [], []⟩ : VariableResolver)
      (resolve (⟨[("a", ⟨"a", "val", false, none⟩)], [], []⟩ : VariableResolver)
        ("\x7b\x7ba\x7d\x7d \x7b\x7b missing \x7d\x7d")) =
    resolve (⟨[("a", ⟨"a", "val", false, none⟩)], [], []⟩ : VariableResolver)
      ("\x7b\x7ba\x7d\x7d \x7b\x7b missing \x7d\x7d") :=
  ⟨by decide, c4_resolve_idem_of_good ⟨[("a", ⟨"a", "val", false, none⟩)], [], []⟩
    (by decide) ("\x7b\x7ba\x7d\x7d \x7b\x7b missing \x7d\x7d")⟩

/-- Claim C5 counterexample: `get_unresolved_variables` does report names
contributed by substituted variable values: with `a` mapped to the value
`\x7b\x7bb\x7d\x7d`, the text consisting of the single token for `a` (whose
only token name, `a`, is mapped) yields `["b"]`, not `[]`. -/
theorem c5_counterexample :
    get_unresolved_variables
      (⟨[("a", ⟨"a", "\x7b\x7bb\x7d\x7d", false, none⟩)], [], []⟩ : VariableResolver)
      ("\x7b\x7ba\x7d\x7d") = ["b"] ∧
    get_unresolved_variables
      (⟨[("a", ⟨"a", "\x7b\x7bb\x7d\x7d", false, none⟩)], [], []⟩ : VariableResolver)
      ("\x7b\x7ba\x7d\x7d") ≠ [] := by
  constructor
  · decide
  · decide

/-- Claim C5 amended: provided every mapped value is nonempty and free of
brace characters, `get_unresolved_variables` returns a duplicate-free list
containing exactly the nonempty stripped names of the tokens of the text
that are present in no mapping. -/
theorem c5_get_unresolved_characterization (r : VariableResolver)
    (hr : GoodResolver r) (text : String) :
    (get_unresolved_variables r text).Nodup ∧
    ∀ n : String, n ∈ get_unresolved_variables r text ↔
      (n.data ≠ [] ∧ unmapped r n ∧
        ∃ i, Piece.tok i ∈ scan text.data ∧ String.mk (strip i) = n) := by
  constructor
  · exact List.nodup_dedup _
  · intro n
    unfold get_unresolved_variables
    rw [List.mem_dedup, List.mem_map]
    constructor
    · rintro ⟨i, hi, rfl⟩
      have hi' : i ∈ findAllGroups (resolveChars r text.data) := hi
      rw [mem_findAll_resolve hr] at hi'
      obtain ⟨j, hj, hm, hne2, rfl⟩ := hi'
      exact ⟨hne2, hm, j, hj, rfl⟩
    · rintro ⟨hnd, hm, i, hi, rfl⟩
      refine ⟨strip i, ?_, rfl⟩
      show strip i ∈ findAllGroups (resolveChars r text.data)
      rw [mem_findAll_resolve hr]
      exact ⟨i, hi, hm, hnd, rfl⟩

theorem c5_get_unresolved_characterization_witness :
    GoodResolver (⟨[("a", ⟨"a", "x1", false, none⟩)], [], []⟩ : VariableResolver) ∧
    ((get_unresolved_variables
        (⟨[("a", ⟨"a", "x1", false, none⟩)], [], []⟩ : VariableResolver)
        ("\x7b\x7ba\x7d\x7d \x7b\x7bb\x7d\x7d")).Nodup ∧
      ∀ n : String, n ∈ get_unresolved_variables
          (⟨[("a", ⟨"a", "x1", false, none⟩)], [], []⟩ : VariableResolver)
          ("\x7b\x7ba\x7d\x7d \x7b\x7bb\x7d\x7d") ↔
        (n.data ≠ [] ∧
          unmapped (⟨[("a", ⟨"a", "x1", false, none⟩)], [], []⟩ : VariableResolver) n ∧
          ∃ i, Piece.tok i ∈ scan ("\x7b\x7ba\x7d\x7d \x7b\x7bb\x7d\x7d" : String).data ∧
            String.mk (strip i) = n)) :=
  ⟨by decide, c5_get_unresolved_characterization
    ⟨[("a", ⟨"a", "x1", false, none⟩)], [], []⟩ (by decide)
    ("\x7b\x7ba\x7d\x7d \x7b\x7bb\x7d\x7d")⟩

/-- Claim C6 counterexample: the token pattern's interior excludes every
`\x7d`, not merely the two-character closer: `\x7b\x7ba\x7db\x7d\x7d` is
not treated as a token, so even with the name `a\x7db` mapped at runtime it
is neither matched nor substituted. -/
theorem c6_counterexample :
    resolve (⟨[], [], [("a\x7db", "V")]⟩ : VariableResolver)
      ("\x7b\x7ba\x7db\x7d\x7d") = "\x7b\x7ba\x7db\x7d\x7d" ∧
    resolve (⟨[], [], [("a\x7db", "V")]⟩ : VariableResolver)
      ("\x7b\x7ba\x7db\x7d\x7d") ≠ "V" ∧
    findAllGroups ("\x7b\x7ba\x7db\x7d\x7d" : String).data = [] := by
  refine ⟨by decide, by decide, by decide⟩

/-- Claim C6 amended: the scanner recognizes exactly the substrings
`\x7b\x7b` + (one or more characters none of which is `\x7d`) + `\x7d\x7d`:
every captured interior is nonempty and `\x7d`-free, and every such
interior placed between the delimiters is captured as a token. -/
theorem c6_token_pattern :
    (∀ s i : List Char, Piece.tok i ∈ scan s → i ≠ [] ∧ ∀ c ∈ i, c ≠ '}') ∧
    (∀ n X : List Char, n ≠ [] → (∀ c ∈ n, c ≠ '}') →
      scan ('{' :: '{' :: (n ++ '}' :: '}' :: X)) = Piece.tok n :: scan X) :=
  ⟨fun _ _ h => tok_mem_scan h, fun _ _ hne hnb => scan_reemit hne hnb⟩

theorem c6_token_pattern_witness :
    scan ('{' :: '{' :: (('a' :: []) ++ '}' :: '}' :: [])) =
      Piece.tok ('a' :: []) :: scan [] ∧
    (('a' :: []) ≠ [] ∧ ∀ c ∈ ('a' :: []), c ≠ '}') :=
  ⟨c6_token_pattern.2 ('a' :: []) [] (by decide) (by decide),
    c6_token_pattern.1 ('{' :: '{' :: (('a' :: []) ++ '}' :: '}' :: []))
      ('a' :: []) (by decide)⟩

/-- Claim C7: a text containing no complete token — no substring of the form
`\x7b\x7b` + nonempty `\x7d`-free interior + `\x7d\x7d` — is returned by
`resolve` unchanged; this covers the empty string, brace-free text, and
malformed tokens such as an unterminated `\x7b\x7b`. -/
theorem c7_no_token_passthrough (r : VariableResolver) (text : String)
    (h : ¬ ∃ pre i post, text.data = pre ++ '{' :: '{' :: (i ++ '}' :: '}' :: post) ∧
      i ≠ [] ∧ ∀ c ∈ i, c ≠ '}') :
    resolve r text = text := by
  have hnotok : ∀ i, Piece.tok i ∉ scan text.data := by
    intro i hi
    obtain ⟨hne, hnb⟩ := tok_mem_scan hi
    obtain ⟨pre, post, hd⟩ := tok_mem_scan_decomp hi
    exact h ⟨pre, i, post, hd, hne, hnb⟩
  unfold resolve resolveChars
  rw [scan_all_raw_of_no_tok hnotok, flatten_map_raw]

theorem c7_no_token_passthrough_witness :
    resolve (⟨[], [], [("a", "V")]⟩ : VariableResolver) ("\x7b\x7b oops") =
      "\x7b\x7b oops" ∧
    resolve (⟨[], [], [("a", "V")]⟩ : VariableResolver) ("") = "" :=
  ⟨c7_no_token_passthrough ⟨[], [], [("a", "V")]⟩ ("\x7b\x7b oops") (by
      rintro ⟨pre, i, post, hd, -, -⟩
      have hmem : ('}' : Char) ∈ ("\x7b\x7b oops" : String).data := by
        rw [hd]
        simp
      revert hmem
      decide),
    c7_no_token_passthrough ⟨[], [], [("a", "V")]⟩ ("") (by
      rintro ⟨pre, i, post, hd, -, -⟩
      simp at hd)⟩

/-- Claim C8: `resolve_dict` preserves the key sequence of a flat mapping,
applies `resolve` to every string value, passes every non-string value
through unchanged, and does so entrywise at every key; in particular the
spec's example with a string and an integer value holds. -/
theorem c8_resolve_dict (r : VariableResolver) (data : List (String × PyValue)) :
    ((resolve_dict r data).map Prod.fst = data.map Prod.fst ∧
      ∀ k : String, (resolve_dict r data).lookup k =
        (data.lookup k).map (fun v =>
          match v with
          | PyValue.str s => PyValue.str (resolve r s)
          | v => v)) ∧
    resolve_dict (⟨[], [], [("token", "v")]⟩ : VariableResolver)
      [("h", PyValue.str ("\x7b\x7btoken\x7d\x7d")), ("n", PyValue.int 42)] =
      [("h", PyValue.str ("v")), ("n", PyValue.int 42)] := by
  refine ⟨⟨?_, ?_⟩, by decide⟩
  · rw [resolve_dict_eq_map, List.map_map]
    rfl
  · intro k
    rw [resolve_dict_eq_map]
    exact lookup_map_value (fun v =>
      match v with
      | PyValue.str s => PyValue.str (resolve r s)
      | v => v) data k

/-- Claim C9: every resolver operation is total and raises no exception:
the exception-aware embeddings (where each Python `dict` subscript can
raise `KeyError`) return `ok` of the pure results on every input. -/
theorem c9_total_no_exceptions (r : VariableResolver) (text : String)
    (data : List (String × PyValue)) :
    resolveE r text = Except.ok (resolve r text) ∧
    resolve_dictE r data = Except.ok (resolve_dict r data) ∧
    get_unresolved_variablesE r text = Except.ok (get_unresolved_variables r text) ∧
    validateE r text = Except.ok (validate r text) ∧
    get_all_variablesE r = Except.ok (get_all_variables r) :=
  ⟨resolveE_ok r text, resolve_dictE_ok r data, get_unresolved_variablesE_ok r text,
    validateE_ok r text, rfl⟩

/-- Claim C10: the empty-interior pair `\x7b\x7b\x7d\x7d` is never a token:
for every resolver state `resolve` leaves it unchanged and
`get_unresolved_variables` reports nothing for it. -/
theorem c10_empty_interior_not_token (r : VariableResolver) :
    resolve r ("\x7b\x7b\x7d\x7d") = "\x7b\x7b\x7d\x7d" ∧
    get_unresolved_variables r ("\x7b\x7b\x7d\x7d") = [] := by
  have h1 : resolve r ("\x7b\x7b\x7d\x7d") = "\x7b\x7b\x7d\x7d" := by
    unfold resolve resolveChars
    rw [show ("\x7b\x7b\x7d\x7d" : String).data =
      '{' :: '{' :: '}' :: '}' :: ([] : List Char) from rfl]
    rw [scan_emptytok, scan_nil]
    rfl
  refine ⟨h1, ?_⟩
  unfold get_unresolved_variables
  rw [h1]
  decide
